import Mathlib

/-!
Verification of the NIO reconciliation engine specification.

Shallow embedding of the NIO Kubernetes operator (Python) into Lean 4,
covering the functions referenced by the claims:

* `utils.py`: `parse_flake_reference`, `extract_repo_name_from_url`,
  `get_workdir_path`, `calculate_directory_hash`
* `nixosconfiguration_handlers.py`: `get_additional_files_hash`,
  `generate_nixos_facts`, `apply_nixos_configuration`,
  `reconcile_nixos_configuration`
* `machine_handlers.py`: `check_machine_discoverable`
* `known_hosts_manager.py`: `KnownHostsManager.trust_on_first_use`
* `input_validation.py`: `validate_git_url`

Python strings are modeled as `List Char` (or Lean `String`, whose
comparison order on `Char` is by code point, matching Python), bytes as
`List Nat`.  The SHA-256 function from `hashlib` is external to the
repository and is treated as a parameter `sha` of the embedded hashing
functions; all theorems about hashes hold for an arbitrary such function,
in particular for the real SHA-256.
-/

/-! ## Python string helpers

`pySplitChar sep s` models Python `s.split(sep)` for a one-character
separator: every occurrence splits, empty fields are kept, and the result
is never the empty list (`"".split(c) == [""]`). -/

def pySplitChar (sep : Char) : List Char → List (List Char)
  | [] => [[]]
  | c :: rest =>
    if c = sep then [] :: pySplitChar sep rest
    else
      match pySplitChar sep rest with
      | [] => [[]]
      | h :: t => (c :: h) :: t

/-- Python `s.split(sep, 1)` for a one-character separator: the part before
the first occurrence, and (when the separator occurs) the remainder. -/
def pySplitOnce (sep : Char) : List Char → List Char × Option (List Char)
  | [] => ([], none)
  | c :: rest =>
    if c = sep then ([], some rest)
    else
      let r := pySplitOnce sep rest
      (c :: r.1, r.2)

/-- One character of the class `[a-f0-9]`. -/
def isCommitHashChar (c : Char) : Bool :=
  ('a' ≤ c && c ≤ 'f') || ('0' ≤ c && c ≤ '9')

/-- Python `re.match(r"^[a-f0-9]{40}$", ref)` viewed as a Boolean test. -/
def isCommitHash (s : List Char) : Bool :=
  s.length == 40 && s.all isCommitHashChar

/-! ## `utils.parse_flake_reference` and `utils.extract_repo_name_from_url` -/

/-- Result triple `(repo_name, repo_url, commit_hash)` of
`utils.parse_flake_reference`. -/
structure FlakeParse where
  repoName : List Char
  repoUrl : List Char
  commit : List Char
deriving DecidableEq

/-- Embedding of `utils.parse_flake_reference`.  `none` models the `IndexError` the
Python code raises on `parts[1]` when a `github:` source has no `/`. -/
def parse_flake_reference (flakeRef : List Char) : Option FlakeParse :=
  if flakeRef.take 1 = ['.'] then
    some ⟨"local".data, ".".data, "local".data⟩
  else
    let flakeSource := (pySplitOnce '#' flakeRef).1
    if List.isPrefixOf "github:".data flakeSource then
      match pySplitChar '/' (flakeSource.drop 7) with
      | owner :: repo :: rest =>
        some ⟨owner ++ '/' :: repo,
              "https://github.com/".data ++ owner ++ '/' :: repo ++ ".git".data,
              match rest with
              | ref :: _ => if isCommitHash ref then ref else "floating".data
              | [] => "floating".data⟩
      | _ => none
    else
      some ⟨"unknown".data, flakeSource, "unknown".data⟩

/-- Python `re.sub(r"^https?://", "", url)`: the regex is anchored, so it removes
exactly one protocol prefix when present. -/
def strip_http_protocol (s : List Char) : List Char :=
  if List.isPrefixOf "https://".data s then s.drop 8
  else if List.isPrefixOf "http://".data s then s.drop 7
  else s

/-- Python `re.sub(r"\.git$", "", url)`: removes one trailing `.git` when present. -/
def strip_git_suffix (s : List Char) : List Char :=
  if List.isSuffixOf ".git".data s then s.take (s.length - 4) else s

/-- Embedding of `utils.extract_repo_name_from_url`. -/
def extract_repo_name_from_url (gitUrl : List Char) : List Char :=
  let cleanUrl := strip_git_suffix (strip_http_protocol gitUrl)
  let parts := pySplitChar '/' cleanUrl
  match parts.reverse with
  | last :: secondLast :: _ => secondLast ++ '/' :: last
  | _ => cleanUrl

/-- Embedding of `utils.get_workdir_path` (the `os.makedirs` side effect is not
modeled; the claims use only the returned path). -/
def get_workdir_path (ns name repoName commit : String) : String :=
  "/tmp/nixos-config/" ++ ns ++ "/" ++ name ++ "/" ++ repoName ++ "@" ++ commit

/-! ## `known_hosts_manager.KnownHostsManager.trust_on_first_use`

The known-hosts file is modeled by its content: `none` when the file does
not exist, `some content` otherwise. -/

/-- Python `needle in haystack` on strings: substring containment. -/
def pySubstr (needle haystack : List Char) : Bool :=
  decide (needle <:+: haystack)

/-- Python `c in s` for a single character. -/
def pyElem (c : Char) (l : List Char) : Bool :=
  decide (c ∈ l)

/-- The f-string `f"[{hostname}]:{port}"`. -/
def bracketHostPort (hostname : String) (port : Nat) : String :=
  "[" ++ hostname ++ "]:" ++ toString port

/-- Embedding of `KnownHostsManager.trust_on_first_use`: returns `true` (first
connection) when the file is absent, else `false` iff the hostname or its
`[host]:port` form occurs as a substring of the whole file content. -/
def trust_on_first_use (fileContent : Option String) (hostname : String)
    (port : Nat) : Bool :=
  match fileContent with
  | none => true
  | some content =>
    if pySubstr hostname.data content.data ||
        pySubstr (bracketHostPort hostname port).data content.data then false
    else true

/-- The claim's notion of a known-hosts entry, following the spec's words:
the host field of a line is everything before the first space, and the
file has an entry for `hostname` when some line's host field is exactly
`hostname` or exactly `[hostname]:port`. -/
def firstField (line : List Char) : List Char :=
  line.takeWhile (fun c => c ≠ ' ')

/-- Spec-side predicate (for the refinement comparison in claim C6): the
file content has an entry for the given host. -/
def spec_hasHostEntry (content : String) (hostname : String) (port : Nat) : Bool :=
  (pySplitChar '\n' content.data).any (fun line =>
    firstField line == hostname.data ||
    firstField line == (bracketHostPort hostname port).data)

/-! ## `input_validation.validate_git_url`

`urllib.parse.urlparse` scheme extraction: the text before the first `:`,
when it is nonempty, starts with an ASCII letter and consists of scheme
characters, lowercased; otherwise the scheme is empty.  `urlparse` raises
`ValueError` on a netloc with mismatched square brackets; the embedded
`urlparse_raises` models that check (claim-level theorems are stated for
bracket-free URLs, where Python versions agree). -/

def isAsciiAlpha (c : Char) : Bool :=
  ('a' ≤ c && c ≤ 'z') || ('A' ≤ c && c ≤ 'Z')

def isSchemeChar (c : Char) : Bool :=
  isAsciiAlpha c || ('0' ≤ c && c ≤ '9') || c = '+' || c = '-' || c = '.'

def pyToLower (c : Char) : Char :=
  if 'A' ≤ c && c ≤ 'Z' then Char.ofNat (c.toNat + 32) else c

/-- The `scheme` component of `urllib.parse.urlparse` (empty list = no
scheme). -/
def urlparse_scheme (s : List Char) : List Char :=
  match pySplitOnce ':' s with
  | (c :: pre, some _) =>
    if isAsciiAlpha c && (c :: pre).all isSchemeChar then (c :: pre).map pyToLower
    else []
  | _ => []

/-- Whether `urllib.parse.urlparse` raises `ValueError` (mismatched `[`/`]`
in the netloc). -/
def urlparse_raises (s : List Char) : Bool :=
  let rest :=
    match pySplitOnce ':' s with
    | (c :: pre, some r) =>
      if isAsciiAlpha c && (c :: pre).all isSchemeChar then r else s
    | _ => s
  if rest.take 2 = ['/', '/'] then
    let netloc := (rest.drop 2).takeWhile (fun c => c ≠ '/' && c ≠ '?' && c ≠ '#')
    (pyElem '[' netloc && !pyElem ']' netloc) ||
      (pyElem ']' netloc && !pyElem '[' netloc)
  else false

def allowed_schemes : List (List Char) :=
  ["https".data, "http".data, "git".data, "ssh".data]

/-- The `dangerous_chars` list of `validate_git_url`, in source order. -/
def dangerous_url_strs : List (List Char) :=
  [";".data, "$".data, "`".data, "|".data, "&".data, "\n".data, "\r".data,
   "$(".data, "$\x7b".data]

/-- Embedding of `input_validation.validate_git_url`: `none` models a raised
`ValidationError`, `some url` the validated (unchanged) input. -/
def validate_git_url (git_url : String) : Option String :=
  if git_url.data.isEmpty then none
  else if 2048 < git_url.data.length then none
  else if urlparse_raises git_url.data then none
  else if !(urlparse_scheme git_url.data).isEmpty &&
      !decide (urlparse_scheme git_url.data ∈ allowed_schemes) then none
  else if dangerous_url_strs.any (fun d => pySubstr d git_url.data) then none
  else some git_url

/-- Spec-side acceptance predicate for the amended claim C7: nonempty,
length at most 2048, parsed scheme empty or allowed, and none of the
dangerous characters/sequences occurs. -/
def spec_url_accepts (s : String) : Prop :=
  s.data ≠ [] ∧ s.data.length ≤ 2048 ∧
  (urlparse_scheme s.data = [] ∨ urlparse_scheme s.data ∈ allowed_schemes) ∧
  ∀ d ∈ dangerous_url_strs, ¬ d <:+: s.data

instance (s : String) : Decidable (spec_url_accepts s) := by
  unfold spec_url_accepts; infer_instance

/-! ## JSON values and `json.dumps(obj, sort_keys=True)`

`get_additional_files_hash` serializes a Python dict with
`json.dumps(..., sort_keys=True)` (default separators `", "`/`": "`,
`ensure_ascii=True`).  The values occurring there are strings and string
dicts, so a two-constructor JSON type suffices. -/

inductive Json where
  | jstr : String → Json
  | jobj : List (String × Json) → Json

def hexDigit (n : Nat) : Char :=
  if n < 10 then Char.ofNat (48 + n) else Char.ofNat (87 + n)

def u16hex (n : Nat) : String :=
  ⟨[hexDigit (n / 4096 % 16), hexDigit (n / 256 % 16), hexDigit (n / 16 % 16),
    hexDigit (n % 16)]⟩

/-- One character of `json.dumps` ASCII output: `"` and `\` are escaped,
control characters get their short escapes, anything outside `0x20..0x7e`
becomes `\uXXXX` (with a surrogate pair beyond the BMP). -/
def jsonEscapeChar (c : Char) : String :=
  if c = '"' then "\\\""
  else if c = '\\' then "\\\\"
  else if c = '\n' then "\\n"
  else if c = '\t' then "\\t"
  else if c = '\r' then "\\r"
  else if c.toNat = 8 then "\\b"
  else if c.toNat = 12 then "\\f"
  else if c.toNat < 32 || 126 < c.toNat then
    if c.toNat < 65536 then "\\u" ++ u16hex c.toNat
    else
      "\\u" ++ u16hex (55296 + (c.toNat - 65536) / 1024) ++
        "\\u" ++ u16hex (56320 + (c.toNat - 65536) % 1024)
  else String.singleton c

def jsonQuote (s : String) : String :=
  "\"" ++ String.join (s.data.map jsonEscapeChar) ++ "\""

def joinCommaSep : List String → String
  | [] => ""
  | [x] => x
  | x :: rest => x ++ ", " ++ joinCommaSep rest

/-- Embedding of `json.dumps(v, sort_keys=True)`.  Keys are sorted by Python string
comparison, which is code-point lexicographic — exactly Lean's `≤` on
`String`. -/
def jdumps : Json → String
  | .jstr s => jsonQuote s
  | .jobj fields =>
    let sorted := List.insertionSort (fun a b => a.1.1 ≤ b.1.1) fields.attach
    "\x7b" ++
      joinCommaSep (sorted.map (fun x => jsonQuote x.1.1 ++ ": " ++ jdumps x.1.2)) ++
      "\x7d"
termination_by j => sizeOf j
decreasing_by
  have hmem : x.1 ∈ fields := x.2
  have h1 : sizeOf x.1 < sizeOf fields := List.sizeOf_lt_of_mem hmem
  have h2 : sizeOf x.1 = 1 + sizeOf x.1.1 + sizeOf x.1.2 := by
    obtain ⟨a, b⟩ := x.1; rfl
  simp only [Json.jobj.sizeOf_spec]
  omega

/-! ## Data model records

Python passes dynamic dicts; the embedding uses records with the `.get`
defaults of the source folded in (a missing optional key is the default
value). -/

structure SecretRefSpec where
  name : String
  ns : Option String := none
  key : Option String := none
deriving DecidableEq

/-- One `additionalFiles[i]` entry: `path`, `valueType`, and the
type-specific payload (`.get` defaults `''`/`{}` folded in). -/
structure FileSpec where
  path : String := ""
  valueType : String := ""
  inline : String := ""
  secretRef : List (String × String) := []
deriving DecidableEq

/-- The Machine `spec` dict as the configuration reconciler passes it
(`machine['spec']`).  `generate_nixos_facts` reads
`machine_spec.get('status', {}).get('hardwareFacts')`, so the facts field
models that nested lookup (empty when absent — which it always is for a
`spec` dict, but the function is embedded in full). -/
structure MachineSpec where
  hostname : String
  ipAddress : Option String := none
  sshUser : String := "root"
  sshKeySecretRef : Option SecretRefSpec := none
  sshPasswordSecretRef : Option SecretRefSpec := none
  statusHardwareFacts : List (String × Json) := []

/-- Python `dict.update`: keys of `base` overridden by `upd`, new keys of
`upd` appended.  (Python keeps an overridden key at its original position;
since `jdumps` sorts keys at every level, only the key-value mapping
matters and this reordering is immaterial.) -/
def dictUpdate (base upd : List (String × Json)) : List (String × Json) :=
  base.filter (fun p => !(upd.any (fun q => q.1 == p.1))) ++ upd

/-- Embedding of `nixosconfiguration_handlers.generate_nixos_facts`.  `hostname` is a
required field of the Machine spec, so the `.get('hostname', 'unknown')`
default never fires and is folded away; `ipAddress` keeps its default. -/
def generate_nixos_facts (m : MachineSpec) : List (String × Json) :=
  dictUpdate
    [("machine-id", Json.jstr m.hostname),
     ("hostname", Json.jstr m.hostname),
     ("ip-address", Json.jstr (m.ipAddress.getD "unknown"))]
    m.statusHardwareFacts

/-- The `file_info` dict built for one entry inside the loop of
`get_additional_files_hash`. -/
def file_info_of (fs : FileSpec) (ms : Option MachineSpec) : List (String × Json) :=
  let base := [("path", Json.jstr fs.path), ("valueType", Json.jstr fs.valueType)]
  if fs.valueType == "Inline" then base ++ [("inline", Json.jstr fs.inline)]
  else if fs.valueType == "SecretRef" then
    base ++ [("secretRef", Json.jobj (fs.secretRef.map (fun p => (p.1, Json.jstr p.2))))]
  else if fs.valueType == "NixosFacter" then
    match ms with
    | some m => base ++ [("nixosFacter", Json.jobj (generate_nixos_facts m))]
    | none => base
  else base

/-- The `for file_spec in config_spec['additionalFiles']` loop of
`get_additional_files_hash`: `file_info` is rebound on every iteration
(the `files_content` list initialized before the loop is never appended to
in the source), so after the loop it holds the record of the LAST entry. -/
def files_loop (ms : Option MachineSpec) :
    List FileSpec → Option (List (String × Json)) → Option (List (String × Json))
  | [], acc => acc
  | f :: rest, _ => files_loop ms rest (some (file_info_of f ms))

/-- Embedding of `nixosconfiguration_handlers.get_additional_files_hash`.  `sha` is
`hashlib.sha256(...).hexdigest()` on the UTF-8 bytes of the serialized
string, treated as a parameter. -/
def get_additional_files_hash (sha : String → String) (files : List FileSpec)
    (ms : Option MachineSpec) : String :=
  if files.isEmpty then ""
  else
    match files_loop ms files none with
    | some fi => sha (jdumps (Json.jobj fi))
    | none => ""

/-! ## `utils.calculate_directory_hash`

The filesystem under a directory is a finitely branching tree.  Entry
names and file contents are byte lists (`List Nat`); `os.walk` enumerates
each directory's entries in an OS-chosen order, modeled by the order of
the `files` and `subdirs` lists.  The source sorts both lists by name
(Python string order; on UTF-8 names byte-lexicographic order coincides
with code-point order), absorbs each file's path relative to the root
(components joined by `/`, byte 47) followed by its content (8 KiB
chunking concatenates to the plain content), skips unreadable files
(`none` content) after their path was absorbed, and descends depth-first.
Modification times never enter the stream. -/

inductive DirTree where
  | mk : List (List Nat × Option (List Nat)) → List (List Nat × DirTree) → DirTree

/-- Comparison of directory entries by name, as `files.sort()` and
`dirs.sort()` do. -/
def byteKeyLe {α : Type} (a b : List Nat × α) : Prop := a.1 ≤ b.1

instance {α : Type} : DecidableRel (@byteKeyLe α) :=
  fun a b => inferInstanceAs (Decidable (a.1 ≤ b.1))

instance {α : Type} : IsTotal (List Nat × α) byteKeyLe :=
  ⟨fun a b => le_total a.1 b.1⟩

instance {α : Type} : IsTrans (List Nat × α) byteKeyLe :=
  ⟨fun _ _ _ h1 h2 => le_trans h1 h2⟩

instance {α : Type} : IsAntisymm (List Nat × α) (fun a b => a.1 < b.1) :=
  ⟨fun _ _ h1 h2 => absurd (lt_trans h1 h2) (lt_irrefl _)⟩

def sortByKey {α : Type} (l : List (List Nat × α)) : List (List Nat × α) :=
  List.insertionSort byteKeyLe l

/-- Bytes absorbed for the files of one directory, in list order: relative
path, then readable content. -/
def filesStream (pre : List Nat) : List (List Nat × Option (List Nat)) → List Nat
  | [] => []
  | (n, c) :: rest => (pre ++ n) ++ c.getD [] ++ filesStream pre rest

/-- The byte stream `hash_obj` absorbs during the sorted `os.walk` of the
tree: current directory's files (sorted), then each subdirectory (sorted),
depth-first. -/
def walkStream (pre : List Nat) : DirTree → List Nat
  | .mk files subdirs =>
    filesStream pre (sortByKey files) ++
    ((sortByKey subdirs).attach.map
      (fun x => walkStream (pre ++ x.1.1 ++ [47]) x.1.2)).flatten
termination_by t => sizeOf t
decreasing_by
  have hmem : x.1 ∈ subdirs := by
    have h := x.2
    unfold sortByKey at h
    exact (List.perm_insertionSort byteKeyLe subdirs).mem_iff.mp h
  have h1 : sizeOf x.1 < sizeOf subdirs := List.sizeOf_lt_of_mem hmem
  have h2 : sizeOf x.1 = 1 + sizeOf x.1.1 + sizeOf x.1.2 := by
    obtain ⟨a, b⟩ := x.1; rfl
  simp only [DirTree.mk.sizeOf_spec]
  omega

/-- Embedding of `utils.calculate_directory_hash`: the empty string when the root does
not exist (`os.path.exists` false), else the hash of the absorbed walk
stream.  `sha` stands for `hashlib.sha256(...).hexdigest()`. -/
def calculate_directory_hash (sha : List Nat → String) (root : Option DirTree) : String :=
  match root with
  | none => ""
  | some t => sha (walkStream [] t)

/-- A real filesystem directory: entry names are unique within each
directory, recursively. -/
inductive WellFormed : DirTree → Prop
  | mk {files : List (List Nat × Option (List Nat))} {subdirs : List (List Nat × DirTree)} :
      (files.map Prod.fst).Nodup →
      (subdirs.map Prod.fst).Nodup →
      (∀ p ∈ subdirs, WellFormed p.2) →
      WellFormed (.mk files subdirs)

/-- Two trees holding identical bytes, enumerated in possibly different
orders: the file lists are permutations of each other, and the subdirectory
lists agree up to permutation, matching names with recursively equivalent
subtrees (`dpairs` lists the matching). -/
inductive TreeEquiv : DirTree → DirTree → Prop
  | mk {f1 f2 : List (List Nat × Option (List Nat))}
      {d1 d2 : List (List Nat × DirTree)}
      (dpairs : List ((List Nat × DirTree) × (List Nat × DirTree))) :
      f1.Perm f2 →
      dpairs.map Prod.fst = d1 →
      (dpairs.map Prod.snd).Perm d2 →
      (∀ q ∈ dpairs, q.1.1 = q.2.1) →
      (∀ q ∈ dpairs, TreeEquiv q.1.2 q.2.2) →
      TreeEquiv (.mk f1 d1) (.mk f2 d2)

/-! ## The configuration reconciler

`reconcile_nixos_configuration` is embedded as a pure function from the
resource body, the spec and an environment oracle (results of the
machine probe, remote-ref resolution, clone, injection and apply) to the
visible effects of one reconcile: spawned subprocesses, status patches,
`rmtree` calls, whether the per-config GC ran, and the outcome (normal
return vs a raised `kopf.TemporaryError`).

Status writes go through
`patch_namespaced_custom_object_status` with a `{"status": ...}` body,
i.e. JSON merge-patch semantics: a key absent from the patch is kept, a
key set to `null` (Python `None`) is removed.  A patch field is therefore
`Option (Option _)`: `none` = absent, `some none` = null, `some (some v)`
= set to `v`.  Condition entries are modeled by their `type`, `status`
and `reason` (`message` and `lastTransitionTime` carry no claim-relevant
information).  The SSH discoverability probe uses in-process `asyncssh`,
not a subprocess, so it does not appear in `spawns`. -/

structure CondEntry where
  type : String
  status : String
  reason : String
deriving DecidableEq

structure ConfigStatus where
  appliedCommit : Option String := none
  lastAppliedTime : Option String := none
  targetMachine : Option String := none
  configurationHash : Option String := none
  additionalFilesHash : Option String := none
  fullDiskInstallCompleted : Option Bool := none
  hasFullInstall : Option Bool := none
  conditions : Option (List CondEntry) := none
deriving DecidableEq

structure ConfigStatusPatch where
  appliedCommit : Option (Option String) := none
  lastAppliedTime : Option (Option String) := none
  targetMachine : Option (Option String) := none
  configurationHash : Option (Option String) := none
  additionalFilesHash : Option (Option String) := none
  fullDiskInstallCompleted : Option (Option Bool) := none
  hasFullInstall : Option (Option Bool) := none
  conditions : Option (Option (List CondEntry)) := none
deriving DecidableEq

structure MachineStatusPatch where
  hasConfiguration : Option (Option Bool) := none
  appliedConfiguration : Option (Option String) := none
  appliedCommit : Option (Option String) := none
  lastAppliedTime : Option (Option String) := none
deriving DecidableEq

/-- JSON merge-patch on one field. -/
def patchField {α : Type} (old : Option α) : Option (Option α) → Option α
  | none => old
  | some v => v

/-- JSON merge-patch of a status patch onto the stored status. -/
def applyConfigPatch (s : ConfigStatus) (p : ConfigStatusPatch) : ConfigStatus where
  appliedCommit := patchField s.appliedCommit p.appliedCommit
  lastAppliedTime := patchField s.lastAppliedTime p.lastAppliedTime
  targetMachine := patchField s.targetMachine p.targetMachine
  configurationHash := patchField s.configurationHash p.configurationHash
  additionalFilesHash := patchField s.additionalFilesHash p.additionalFilesHash
  fullDiskInstallCompleted :=
    patchField s.fullDiskInstallCompleted p.fullDiskInstallCompleted
  hasFullInstall := patchField s.hasFullInstall p.hasFullInstall
  conditions := patchField s.conditions p.conditions

def applyConfigPatches (s : ConfigStatus) (ps : List ConfigStatusPatch) : ConfigStatus :=
  ps.foldl applyConfigPatch s

/-- The NixosConfiguration `spec` dict. -/
structure ConfigSpec where
  machineRefName : String
  gitRepo : String
  flake : String
  configurationSubdir : Option String := none
  onRemoveFlake : Option String := none
  fullInstall : Bool := false
  credentialsRef : Option SecretRefSpec := none
  additionalFiles : List FileSpec := []
deriving DecidableEq

/-- The parts of the resource body the reconciler reads:
`body.get('status', {})` and `metadata.deletionTimestamp`. -/
structure ConfigBody where
  status : ConfigStatus := {}
  deletionTimestamp : Option String := none
deriving DecidableEq

/-- Subprocesses the reconcile can spawn: git (`ls-remote` resolution,
clone, `add --intent-to-add`) and the two apply commands. -/
inductive Cmd where
  | gitLsRemote
  | gitClone
  | gitAdd
  | nixosAnywhere
  | nixosRebuild
deriving DecidableEq

inductive ReconOutcome where
  | ok
  | tempError
deriving DecidableEq

/-- Environment oracle: what the outside world answers during one
reconcile.  `lsRemoteFails` models a raised `get_remote_commit_hash` error (git was
spawned, the reconcile aborts with a temporary error); `cachedHead = some
h` means the workdir already holds a valid repository with HEAD `h` (then
`clone_git_repo` reuses it without spawning); `cloneFails` models a
raised clone error; `injectedCount` is
the number of files `inject_additional_files` actually injected (each one
gets a `git add --intent-to-add`); `injectedHash` the post-injection
directory hash; `sha` is SHA-256 as in `get_additional_files_hash`. -/
structure ReconEnv where
  machineSpec : MachineSpec
  discoverable : Bool
  remoteCommit : String := ""
  lsRemoteFails : Bool := false
  cachedHead : Option String := none
  cloneFails : Bool := false
  cloneCommit : String := ""
  injectedCount : Nat := 0
  injectedHash : String := ""
  applySuccess : Bool := true
  now : String := ""
  sha : String → String := fun s => s

/-- Observable effects of one reconcile. -/
structure ReconResult where
  spawns : List Cmd := []
  configPatches : List ConfigStatusPatch := []
  machinePatches : List MachineStatusPatch := []
  rmtrees : List String := []
  clonedPath : Option String := none
  gcRun : Bool := false
  outcome : ReconOutcome := .ok
deriving DecidableEq

/-- The `Applied=False, reason=MissingCredentials` status patch written
when the machine is not discoverable. -/
def missingCredPatch (machineName : String) : ConfigStatusPatch :=
  { appliedCommit := some none,
    lastAppliedTime := some none,
    targetMachine := some (some machineName),
    conditions := some (some [⟨"Applied", "False", "MissingCredentials"⟩]) }

/-- The machine-status patch clearing the configuration on delete. -/
def clearMachinePatch : MachineStatusPatch :=
  { hasConfiguration := some (some false),
    appliedConfiguration := some none,
    appliedCommit := some none }

/-- The machine-status patch after a successful normal apply. -/
def applySuccessMachinePatch (name commit now : String) : MachineStatusPatch :=
  { hasConfiguration := some (some true),
    appliedConfiguration := some (some name),
    appliedCommit := some (some commit),
    lastAppliedTime := some (some now) }

/-- The configuration-status patch after a successful remove-apply.  Note
the latch is written under key `hasFullInstall`. -/
def removedConfigPatch (commit now machineName cfgHash afHash : String)
    (curFull : Bool) : ConfigStatusPatch :=
  { appliedCommit := some (some commit),
    lastAppliedTime := some (some now),
    targetMachine := some (some machineName),
    configurationHash := some (some cfgHash),
    additionalFilesHash := some (some afHash),
    hasFullInstall := some (some curFull),
    conditions := some (some [⟨"Applied", "True", "Removed"⟩]) }

/-- The configuration-status patch after a successful normal apply.  Note
the latch is written under key `hasFullInstall`. -/
def appliedConfigPatch (commit now machineName cfgHash afHash : String)
    (fullFlag : Bool) : ConfigStatusPatch :=
  { appliedCommit := some (some commit),
    lastAppliedTime := some (some now),
    targetMachine := some (some machineName),
    configurationHash := some (some cfgHash),
    additionalFilesHash := some (some afHash),
    hasFullInstall := some (some fullFlag),
    conditions := some (some [⟨"Applied", "True", "Success"⟩]) }

/-- Steps 7-8 of the reconcile (apply + status commit + GC), entered when
`should_reconcile` is true.  `spawns0` are the git subprocesses already
spawned, `workdir` the repo path (removed by the `finally`), `actual` the
actual commit hash from the clone. -/
def reconcile_apply_phase (body : ConfigBody) (spec : ConfigSpec) (name : String)
    (env : ReconEnv) (spawns0 : List Cmd) (workdir actual afHash : String)
    (curFull : Bool) : ReconResult :=
  let isRemove := body.deletionTimestamp.isSome
  let injectSpawns := List.replicate env.injectedCount Cmd.gitAdd
  let needsFull := spec.fullInstall && !curFull
  let applyCmd := if needsFull && !isRemove then Cmd.nixosAnywhere else Cmd.nixosRebuild
  let spawns := spawns0 ++ injectSpawns ++ [applyCmd]
  if env.applySuccess then
    if isRemove then
      { spawns := spawns,
        machinePatches := [clearMachinePatch],
        configPatches :=
          [removedConfigPatch actual env.now spec.machineRefName env.injectedHash
            afHash curFull],
        gcRun := true, rmtrees := [workdir], clonedPath := some workdir,
        outcome := .ok }
    else
      { spawns := spawns,
        machinePatches := [applySuccessMachinePatch name actual env.now],
        configPatches :=
          [appliedConfigPatch actual env.now spec.machineRefName env.injectedHash
            afHash (needsFull || curFull)],
        gcRun := true, rmtrees := [workdir], clonedPath := some workdir,
        outcome := .ok }
  else
    { spawns := spawns, rmtrees := [workdir], clonedPath := some workdir,
      outcome := .tempError }

/-- Steps 4-6 (hashes, change detection, deletion branch), entered after
`clone_git_repo` returned `(workdir, actual)`.  Everything from here on
runs inside the `try`/`finally` that removes `repo_path`. -/
def reconcile_post_clone (body : ConfigBody) (spec : ConfigSpec) (name : String)
    (env : ReconEnv) (spawns0 : List Cmd) (workdir actual : String) : ReconResult :=
  let afHash := get_additional_files_hash env.sha spec.additionalFiles (some env.machineSpec)
  let st := body.status
  let commitChanged := st.appliedCommit != some actual
  let afChanged := st.additionalFilesHash.getD "" != afHash
  let curFull := st.fullDiskInstallCompleted.getD false
  match body.deletionTimestamp with
  | some _ =>
    if spec.onRemoveFlake.isSome then
      reconcile_apply_phase body spec name env spawns0 workdir actual afHash curFull
    else
      { spawns := spawns0, machinePatches := [clearMachinePatch],
        rmtrees := [workdir], clonedPath := some workdir, outcome := .ok }
  | none =>
    if commitChanged || afChanged then
      reconcile_apply_phase body spec name env spawns0 workdir actual afHash curFull
    else
      { spawns := spawns0, rmtrees := [workdir], clonedPath := some workdir,
        outcome := .ok }

/-- Embedding of `reconcile_nixos_configuration`: availability gate, source resolution,
clone, then `reconcile_post_clone`.  `outcome = .tempError` models the
`kopf.TemporaryError` raised (directly or via the outer `except`). -/
def reconcile (body : ConfigBody) (spec : ConfigSpec) (name ns : String)
    (env : ReconEnv) : ReconResult :=
  if !env.discoverable then
    { configPatches := [missingCredPatch spec.machineRefName], outcome := .ok }
  else
    match parse_flake_reference (spec.gitRepo ++ spec.flake).data with
    | none => { outcome := .tempError }
    | some fp =>
      let floating := fp.commit = "floating".data
      let repoName : String :=
        if floating then ⟨extract_repo_name_from_url spec.gitRepo.data⟩
        else ⟨fp.repoName⟩
      let preSpawns : List Cmd := if floating then [.gitLsRemote] else []
      let newCommit : String := if floating then env.remoteCommit else ⟨fp.commit⟩
      let workdir := get_workdir_path ns name repoName newCommit
      if floating && env.lsRemoteFails then
        { spawns := [Cmd.gitLsRemote], outcome := .tempError }
      else
        match env.cachedHead with
        | some h => reconcile_post_clone body spec name env preSpawns workdir h
        | none =>
          if env.cloneFails then
            { spawns := preSpawns ++ [Cmd.gitClone], outcome := .tempError }
          else
            reconcile_post_clone body spec name env (preSpawns ++ [Cmd.gitClone])
              workdir env.cloneCommit

/-! ## Temporary SSH key lifecycle

`apply_nixos_configuration` and `check_machine_discoverable` each write
the private key from the secret to a `NamedTemporaryFile(delete=False)`
and delete it in a `finally` block.  The embedding records which key files
a call creates and which it removes; command execution is an oracle
(`CmdOutcome.exception` covers any exception inside the `try`, all caught
and turned into `False`).  Command-line composition is elided here: the
choice between `nixos-anywhere` and `nixos-rebuild` is modeled in
`reconcile_apply_phase`. -/

inductive CmdOutcome where
  | success
  | exitNonzero
  | exception
deriving DecidableEq

/-- Python `d.get(k)` on a string dict. -/
def lookupStr (k : String) (l : List (String × String)) : Option String :=
  (l.find? (fun p => p.1 == k)).map Prod.snd

structure KeyTrace where
  success : Bool
  created : List String
  removed : List String
deriving DecidableEq

structure ApplyEnv where
  secretResult : Except Unit (List (String × String)) := .error ()
  keyPath : String := ""
  cmdOutcome : CmdOutcome := .success

/-- The SSH-key section of `apply_nixos_configuration`: `none` models an
early `return False` (secret fetch failed, or `ssh-privatekey` missing or
empty); `some created` the list of temp key files written. -/
def apply_key_setup (m : MachineSpec) (env : ApplyEnv) : Option (List String) :=
  match m.sshKeySecretRef with
  | none => some []
  | some _ =>
    match env.secretResult with
    | .error _ => none
    | .ok data =>
      match lookupStr "ssh-privatekey" data with
      | none => none
      | some k => if k.isEmpty then none else some [env.keyPath]

/-- Embedding of `apply_nixos_configuration`, viewed through its key-file lifecycle and
return value.  The `finally` clause removes the temp key on every exit
path; an early `return False` happens before any key file is written.
`spec`, `repoPath`, `commitHash`, `isRemove` and `needsFull` shape only
the command line, which `reconcile_apply_phase` models; they do not touch
the key lifecycle. -/
def apply_nixos_configuration (m : MachineSpec) (_spec : ConfigSpec)
    (_repoPath _commitHash : String) (_isRemove _needsFull : Bool)
    (env : ApplyEnv) : KeyTrace :=
  match apply_key_setup m env with
  | none => { success := false, created := [], removed := [] }
  | some created =>
    let ran :=
      match env.cmdOutcome with
      | .success => true
      | .exitNonzero => false
      | .exception => false
    { success := ran, created := created, removed := created }

structure ProbeEnv where
  keySecretResult : Except Unit (List (String × String)) := .error ()
  passwordSecretResult : Except Unit (List (String × String)) := .error ()
  keyPath : String := ""
  connectResult : Except Unit String := .error ()

/-- The SSH-key tier of `check_machine_discoverable`: failures to obtain a
key emit an event and fall through to the next credential tier, creating
no file. -/
def probe_key_setup (m : MachineSpec) (env : ProbeEnv) : List String :=
  match m.sshKeySecretRef with
  | none => []
  | some _ =>
    match env.keySecretResult with
    | .error _ => []
    | .ok data =>
      match lookupStr "ssh-privatekey" data with
      | none => []
      | some k => if k.isEmpty then [] else [env.keyPath]

/-- Embedding of `check_machine_discoverable`, viewed through its key-file lifecycle
and return value.  The password tier only adds a password to the SSH
config and never touches key files; `connectResult` is the stripped
stdout of `echo "machine_available"` (or a connection/run exception), and
the inner `finally` removes the temp key before the result propagates. -/
def check_machine_discoverable (m : MachineSpec) (env : ProbeEnv) : KeyTrace :=
  let created := probe_key_setup m env
  let ok :=
    match env.connectResult with
    | .ok out => out == "machine_available"
    | .error _ => false
  { success := ok, created := created, removed := created }

/-! ## Concrete instances used by witnesses and counterexamples -/

def wMachine : MachineSpec := { hostname := "10.0.0.5" }

def c1Spec : ConfigSpec :=
  { machineRefName := "m", gitRepo := "github:o/r", flake := "#host",
    fullInstall := true }

def c1Env1 : ReconEnv :=
  { machineSpec := wMachine, discoverable := true, remoteCommit := "c1",
    cloneCommit := "c1", injectedHash := "h1", now := "t1" }

def c1Env2 : ReconEnv :=
  { machineSpec := wMachine, discoverable := true, remoteCommit := "c2",
    cloneCommit := "c2", injectedHash := "h2", now := "t2" }

/-- First reconcile of a fresh `fullInstall=true` configuration. -/
def c1Run1 : ReconResult := reconcile {} c1Spec "cfg" "default" c1Env1

/-- The stored status after the first reconcile's patches are merged. -/
def c1Status1 : ConfigStatus := applyConfigPatches {} c1Run1.configPatches

/-- Second reconcile, after the remote branch advanced. -/
def c1Run2 : ReconResult := reconcile { status := c1Status1 } c1Spec "cfg" "default" c1Env2

def c2SpecA : List FileSpec :=
  [{ path := "a", valueType := "Inline", inline := "1" },
   { path := "z", valueType := "Inline", inline := "2" }]

def c2SpecB : List FileSpec :=
  [{ path := "b", valueType := "Inline", inline := "9" },
   { path := "z", valueType := "Inline", inline := "2" }]

def c3Body : ConfigBody := { status := { appliedCommit := some "c1" } }

def c3Spec : ConfigSpec :=
  { machineRefName := "m", gitRepo := "github:o/r", flake := "#host" }

def c3Env : ReconEnv :=
  { machineSpec := wMachine, discoverable := true, remoteCommit := "c1",
    cloneCommit := "c1" }

def c3Run : ReconResult := reconcile c3Body c3Spec "cfg" "default" c3Env

def c4Env : ReconEnv := { machineSpec := wMachine, discoverable := false }

def c4Run : ReconResult := reconcile {} c3Spec "cfg" "default" c4Env

def c6Content : String := "myhost.example.com ssh-ed25519 AAAAKEY\n"

def c6Fresh : String := "alpha ssh-ed25519 KEY\n"

def c10Body : ConfigBody := {}

def c10Spec : ConfigSpec :=
  { machineRefName := "m", gitRepo := "github:o/r", flake := "#host" }

def c10Env : ReconEnv :=
  { machineSpec := wMachine, discoverable := true, remoteCommit := "c1",
    cloneCommit := "c1", injectedHash := "hh", now := "t0" }

def c10Run : ReconResult := reconcile c10Body c10Spec "cfg" "default" c10Env

/-- UTF-8 bytes of an ASCII name, for building concrete trees. -/
def bytes (s : String) : List Nat := s.data.map Char.toNat

def c9t1 : DirTree :=
  .mk [(bytes "b.nix", some (bytes "xx")), (bytes "a.nix", some (bytes "yy"))]
     [(bytes "sub", .mk [(bytes "f", some (bytes "zz"))] [])]

/-- A concrete stand-in for the hash function, for the witness. -/
def shaLen : List Nat → String := fun l => toString l.length

def c9t2 : DirTree :=
  .mk [(bytes "a.nix", some (bytes "yy")), (bytes "b.nix", some (bytes "xx"))]
     [(bytes "sub", .mk [(bytes "f", some (bytes "zz"))] [])]

/-! ## Helper lemmas -/

theorem pySplitOnce_cons (sep c : Char) (rest : List Char) :
    pySplitOnce sep (c :: rest) =
      if c = sep then ([], some rest)
      else (c :: (pySplitOnce sep rest).1, (pySplitOnce sep rest).2) := rfl

theorem pySplitChar_cons (sep c : Char) (rest : List Char) :
    pySplitChar sep (c :: rest) =
      if c = sep then [] :: pySplitChar sep rest
      else
        match pySplitChar sep rest with
        | [] => [[]]
        | h :: t => (c :: h) :: t := rfl

theorem post_clone_noop (body : ConfigBody) (spec : ConfigSpec) (name : String)
    (env : ReconEnv) (spawns0 : List Cmd) (workdir actual : String)
    (h2 : body.deletionTimestamp = none)
    (h3 : body.status.appliedCommit = some actual)
    (h4 : body.status.additionalFilesHash.getD "" =
      get_additional_files_hash env.sha spec.additionalFiles (some env.machineSpec)) :
    reconcile_post_clone body spec name env spawns0 workdir actual =
      { spawns := spawns0, rmtrees := [workdir], clonedPath := some workdir,
        outcome := .ok } := by
  unfold reconcile_post_clone
  rw [h2]
  simp [h3, h4]

theorem apply_phase_rmtree (body : ConfigBody) (spec : ConfigSpec) (name : String)
    (env : ReconEnv) (spawns0 : List Cmd) (workdir actual afHash : String)
    (curFull : Bool) :
    (reconcile_apply_phase body spec name env spawns0 workdir actual afHash curFull).rmtrees
      = [workdir] ∧
    (reconcile_apply_phase body spec name env spawns0 workdir actual afHash curFull).clonedPath
      = some workdir := by
  unfold reconcile_apply_phase
  by_cases h : env.applySuccess <;> by_cases h2 : body.deletionTimestamp.isSome <;>
    simp [h, h2]

theorem post_clone_rmtree (body : ConfigBody) (spec : ConfigSpec) (name : String)
    (env : ReconEnv) (spawns0 : List Cmd) (workdir actual : String) :
    (reconcile_post_clone body spec name env spawns0 workdir actual).rmtrees = [workdir] ∧
    (reconcile_post_clone body spec name env spawns0 workdir actual).clonedPath
      = some workdir := by
  unfold reconcile_post_clone
  cases hdel : body.deletionTimestamp with
  | none =>
    by_cases hch : ((body.status.appliedCommit != some actual) ||
        (body.status.additionalFilesHash.getD "" !=
          get_additional_files_hash env.sha spec.additionalFiles (some env.machineSpec))) <;>
      simp [hch, apply_phase_rmtree]
  | some d =>
    by_cases hrf : spec.onRemoveFlake.isSome <;> simp [hrf, apply_phase_rmtree]

/-! ## Claim theorems -/

/-- C4: whenever the referenced Machine probes as not discoverable, the
reconcile writes exactly the `Applied=False, reason=MissingCredentials`
configuration-status patch, patches nothing else, spawns no subprocess,
returns normally — and in particular never writes a condition with
`type=Applied` and `status=True`. -/
theorem discoverability_gating (body : ConfigBody) (spec : ConfigSpec)
    (name ns : String) (env : ReconEnv) (h : env.discoverable = false) :
    (reconcile body spec name ns env).configPatches = [missingCredPatch spec.machineRefName] ∧
    (reconcile body spec name ns env).machinePatches = [] ∧
    (reconcile body spec name ns env).spawns = [] ∧
    (reconcile body spec name ns env).outcome = .ok ∧
    ∀ p ∈ (reconcile body spec name ns env).configPatches, ∀ l,
      p.conditions = some (some l) →
      ∀ c ∈ l, ¬(c.type = "Applied" ∧ c.status = "True") := by
  have hr : reconcile body spec name ns env =
      { configPatches := [missingCredPatch spec.machineRefName], outcome := .ok } := by
    unfold reconcile
    rw [h]
    rfl
  refine ⟨by rw [hr], by rw [hr], by rw [hr], by rw [hr], ?_⟩
  rw [hr]
  intro p hp l hl c hc
  simp only [List.mem_singleton] at hp
  subst hp
  simp only [missingCredPatch, Option.some.injEq] at hl
  subst hl
  simp only [List.mem_singleton] at hc
  subst hc
  simp

/-- C4 witness: a concrete undiscoverable machine. -/
theorem discoverability_gating_witness :
    c4Env.discoverable = false ∧
    (c4Run.configPatches = [missingCredPatch c3Spec.machineRefName] ∧
      c4Run.machinePatches = [] ∧ c4Run.spawns = [] ∧ c4Run.outcome = .ok ∧
      ∀ p ∈ c4Run.configPatches, ∀ l, p.conditions = some (some l) →
        ∀ c ∈ l, ¬(c.type = "Applied" ∧ c.status = "True")) :=
  ⟨rfl, discoverability_gating {} c3Spec "cfg" "default" c4Env rfl⟩

/-- C5: both `apply_nixos_configuration` and the discoverability probe
remove exactly the temporary SSH key files they created, on every exit
path (command success, non-zero exit, and raised exception alike). -/
theorem temp_ssh_key_cleanup :
    (∀ (m : MachineSpec) (spec : ConfigSpec) (repoPath commitHash : String)
        (isRemove needsFull : Bool) (env : ApplyEnv),
      (apply_nixos_configuration m spec repoPath commitHash isRemove needsFull env).removed =
        (apply_nixos_configuration m spec repoPath commitHash isRemove needsFull env).created) ∧
    (∀ (m : MachineSpec) (env : ProbeEnv),
      (check_machine_discoverable m env).removed = (check_machine_discoverable m env).created) := by
  constructor
  · intro m spec repoPath commitHash isRemove needsFull env
    unfold apply_nixos_configuration
    cases apply_key_setup m env <;> rfl
  · intro m env
    rfl

/-- Every terminal result of `reconcile` either reports no checkout or
removes exactly the checkout path it reports. -/
theorem reconcile_shape (body : ConfigBody) (spec : ConfigSpec)
    (name ns : String) (env : ReconEnv) :
    ∀ r, r = reconcile body spec name ns env →
      r.clonedPath = none ∨ ∃ w, r.clonedPath = some w ∧ r.rmtrees = [w] := by
  intro r hr
  unfold reconcile at hr
  dsimp only at hr
  split at hr
  · subst hr; left; rfl
  · split at hr
    · subst hr; left; rfl
    · split at hr
      · subst hr; left; rfl
      · split at hr
        · subst hr
          right
          obtain ⟨hrt, hcp⟩ := post_clone_rmtree body spec name env _ _ _
          exact ⟨_, hcp, hrt⟩
        · split at hr
          · subst hr; left; rfl
          · subst hr
            right
            obtain ⟨hrt, hcp⟩ := post_clone_rmtree body spec name env _ _ _
            exact ⟨_, hcp, hrt⟩

/-- C10: every reconcile whose clone step returned a checkout removes that
checkout path in its exit path, on success and failure alike. -/
theorem reconcile_removes_checkout (body : ConfigBody) (spec : ConfigSpec)
    (name ns : String) (env : ReconEnv) (p : String)
    (h : (reconcile body spec name ns env).clonedPath = some p) :
    p ∈ (reconcile body spec name ns env).rmtrees := by
  rcases reconcile_shape body spec name ns env _ rfl with hnone | ⟨w, hcp, hrt⟩
  · rw [hnone] at h; cases h
  · rw [hcp] at h
    cases h
    rw [hrt]
    exact List.mem_singleton_self _

/-- C10 witness: a concrete no-op reconcile still removes its checkout. -/
theorem reconcile_removes_checkout_witness :
    c10Run.clonedPath = some "/tmp/nixos-config/default/cfg/github:o/r@c1" ∧
    "/tmp/nixos-config/default/cfg/github:o/r@c1" ∈ c10Run.rmtrees :=
  ⟨by decide,
   reconcile_removes_checkout c10Body c10Spec "cfg" "default" c10Env
     "/tmp/nixos-config/default/cfg/github:o/r@c1" (by decide)⟩

/-- C1 (code bug): the full-install latch never becomes effective.  A fresh
`fullInstall=true` configuration is reconciled successfully (spawning
`nixos-anywhere`); the success patch persists the latch as `true` — but
under status key `hasFullInstall`, while the install-mode decision reads
`fullDiskInstallCompleted`, which no reconcile ever writes.  The next
reconcile (remote advanced to a new commit) therefore composes
`nixos-anywhere` again, contradicting the claim that after the latch is
persisted true no subsequent reconcile composes a nixos-anywhere command. -/
theorem full_install_latch_ineffective :
    Cmd.nixosAnywhere ∈ c1Run1.spawns ∧
    c1Run1.outcome = .ok ∧
    c1Status1.hasFullInstall = some true ∧
    c1Status1.fullDiskInstallCompleted = none ∧
    Cmd.nixosAnywhere ∈ c1Run2.spawns := by
  decide

/-- C2 (code bug): `get_additional_files_hash` serializes only the last
loop iteration's `file_info` (the `files_content` list is never filled),
so two specs that differ in their first entry but share their last entry
hash identically — for every hash function, in particular SHA-256.  The
empty spec does return the empty string. -/
theorem additional_files_hash_ignores_all_but_last (sha : String → String) :
    c2SpecA ≠ c2SpecB ∧
    get_additional_files_hash sha c2SpecA none = get_additional_files_hash sha c2SpecB none ∧
    get_additional_files_hash sha [] none = "" := by
  refine ⟨by decide, ?_, rfl⟩
  rfl

/-- C3 counterexample: a reconcile whose stored status already matches the
resolved commit and additional-files hash (discoverable machine, no
deletion) still spawns subprocesses — `git ls-remote` for the floating ref
and `git clone` — though it issues no status change.  This refutes the
claim's "spawns no subprocess". -/
theorem noop_reconcile_spawns_subprocesses :
    c3Body.status.appliedCommit = some c3Env.cloneCommit ∧
    c3Body.status.additionalFilesHash.getD "" =
      get_additional_files_hash c3Env.sha c3Spec.additionalFiles (some c3Env.machineSpec) ∧
    c3Body.deletionTimestamp = none ∧
    c3Env.discoverable = true ∧
    c3Run.configPatches = [] ∧
    c3Run.machinePatches = [] ∧
    c3Run.spawns = [Cmd.gitLsRemote, Cmd.gitClone] := by
  decide

/-- C3 amended: when the stored `appliedCommit` equals the commit the
clone resolves and the stored `additionalFilesHash` equals the computed
hash (machine discoverable, no deletion), the reconcile issues no status
change and spawns no apply command (`nixos-anywhere`/`nixos-rebuild`) and
runs no GC — though git subprocesses (ls-remote/clone) may still run. -/
theorem matching_status_no_apply_no_patch (body : ConfigBody) (spec : ConfigSpec)
    (name ns : String) (env : ReconEnv)
    (h1 : env.discoverable = true)
    (h2 : body.deletionTimestamp = none)
    (h3 : body.status.appliedCommit = some (env.cachedHead.getD env.cloneCommit))
    (h4 : body.status.additionalFilesHash.getD "" =
      get_additional_files_hash env.sha spec.additionalFiles (some env.machineSpec)) :
    (reconcile body spec name ns env).configPatches = [] ∧
    (reconcile body spec name ns env).machinePatches = [] ∧
    Cmd.nixosAnywhere ∉ (reconcile body spec name ns env).spawns ∧
    Cmd.nixosRebuild ∉ (reconcile body spec name ns env).spawns ∧
    (reconcile body spec name ns env).gcRun = false := by
  have hmain : ∀ r, r = reconcile body spec name ns env →
      r.configPatches = [] ∧ r.machinePatches = [] ∧
      Cmd.nixosAnywhere ∉ r.spawns ∧ Cmd.nixosRebuild ∉ r.spawns ∧ r.gcRun = false := by
    intro r hr
    unfold reconcile at hr
    rw [h1] at hr
    dsimp only at hr
    split at hr
    · rename_i hcond
      exact absurd hcond (by simp)
    · split at hr
      · subst hr
        exact ⟨rfl, rfl, by simp, by simp, rfl⟩
      · split at hr
        · subst hr
          exact ⟨rfl, rfl, by simp, by simp, rfl⟩
        · split at hr
          · rename_i hh heq
            rw [heq, Option.getD_some] at h3
            rw [post_clone_noop body spec name env _ _ hh h2 h3 h4] at hr
            subst hr
            refine ⟨rfl, rfl, ?_, ?_, rfl⟩ <;> · dsimp only; split <;> simp
          · rename_i heq
            rw [heq, Option.getD_none] at h3
            split at hr
            · subst hr
              refine ⟨rfl, rfl, ?_, ?_, rfl⟩ <;> · dsimp only; split <;> simp
            · rw [post_clone_noop body spec name env _ _ env.cloneCommit h2 h3 h4] at hr
              subst hr
              refine ⟨rfl, rfl, ?_, ?_, rfl⟩ <;> · dsimp only; split <;> simp
  exact hmain _ rfl

/-- C3 amended witness: the concrete matching-status reconcile. -/
theorem matching_status_no_apply_no_patch_witness :
    c3Env.discoverable = true ∧ c3Body.deletionTimestamp = none ∧
    (c3Run.configPatches = [] ∧ c3Run.machinePatches = [] ∧
      Cmd.nixosAnywhere ∉ c3Run.spawns ∧ Cmd.nixosRebuild ∉ c3Run.spawns ∧
      c3Run.gcRun = false) :=
  ⟨rfl, rfl,
   matching_status_no_apply_no_patch c3Body c3Spec "cfg" "default" c3Env rfl rfl
     (by decide) (by decide)⟩

/-- Every element of `pySplitChar sep s` is a contiguous piece of `s`; the
head is even a prefix. -/
theorem pySplitChar_pieces (sep : Char) :
    ∀ s : List Char, ∃ h t, pySplitChar sep s = h :: t ∧ h <+: s ∧ ∀ l ∈ t, l <:+: s := by
  intro s
  induction s with
  | nil => exact ⟨[], [], rfl, List.nil_prefix, by simp⟩
  | cons c rest ih =>
    obtain ⟨h, t, heq, hpre, hinf⟩ := ih
    by_cases hc : c = sep
    · refine ⟨[], h :: t, ?_, List.nil_prefix, ?_⟩
      · rw [pySplitChar_cons, if_pos hc, heq]
      · intro l hl
        rcases List.mem_cons.mp hl with rfl | hl2
        · exact List.infix_cons hpre.isInfix
        · exact List.infix_cons (hinf l hl2)
    · refine ⟨c :: h, t, ?_, ?_, ?_⟩
      · rw [pySplitChar_cons, if_neg hc, heq]
      · obtain ⟨k, hk⟩ := hpre
        exact ⟨k, by rw [← hk]; rfl⟩
      · intro l hl
        exact List.infix_cons (hinf l hl)

theorem mem_pySplitChar_piece (sep : Char) (s l : List Char)
    (h : l ∈ pySplitChar sep s) : l <:+: s := by
  obtain ⟨hd, tl, heq, hpre, hinf⟩ := pySplitChar_pieces sep s
  rw [heq] at h
  rcases List.mem_cons.mp h with rfl | h2
  · exact hpre.isInfix
  · exact hinf l h2

/-- C6 counterexample: the known-hosts file records `myhost.example.com`
only; the queried host `host.example.com` has no entry (no line's host
field equals it), yet `trust_on_first_use` returns `false` because the
query is a substring of the recorded line. -/
theorem tofu_substring_counterexample :
    spec_hasHostEntry c6Content "host.example.com" 22 = false ∧
    trust_on_first_use (some c6Content) "host.example.com" 22 = false := by
  decide

/-- C6 amended: `trust_on_first_use` returns `true` when the file is
absent; and whenever it returns `true` the file indeed has no entry for
the host (first=true is sound) — but the converse fails: the check is
substring containment of the hostname (or `[host]:port`) in the whole
file, so a host that merely occurs inside another recorded host's line
already yields first=false. -/
theorem tofu_first_implies_no_entry (content hostname : String) (port : Nat) :
    trust_on_first_use none hostname port = true ∧
    (trust_on_first_use (some content) hostname port = true →
      spec_hasHostEntry content hostname port = false) := by
  refine ⟨rfl, ?_⟩
  intro htrust
  by_contra hne
  have hentry : spec_hasHostEntry content hostname port = true := by
    revert hne; cases spec_hasHostEntry content hostname port <;> simp
  unfold spec_hasHostEntry at hentry
  rw [List.any_eq_true] at hentry
  obtain ⟨line, hline, hmatch⟩ := hentry
  have hinfix : line <:+: content.data := mem_pySplitChar_piece '\n' content.data line hline
  have hff : firstField line <+: line := List.takeWhile_prefix _
  rw [Bool.or_eq_true, beq_iff_eq, beq_iff_eq] at hmatch
  have hsub : pySubstr hostname.data content.data = true ∨
      pySubstr (bracketHostPort hostname port).data content.data = true := by
    rcases hmatch with he | he
    · left
      simp only [pySubstr, decide_eq_true_eq]
      rw [← he]
      exact hff.isInfix.trans hinfix
    · right
      simp only [pySubstr, decide_eq_true_eq]
      rw [← he]
      exact hff.isInfix.trans hinfix
  unfold trust_on_first_use at htrust
  rcases hsub with he | he <;> simp [he] at htrust

/-- C6 amended witness: a genuinely new host on a file with one unrelated
entry. -/
theorem tofu_first_implies_no_entry_witness :
    trust_on_first_use (some c6Fresh) "beta" 22 = true ∧
    spec_hasHostEntry c6Fresh "beta" 22 = false ∧
    trust_on_first_use none "beta" 22 = true :=
  ⟨by decide, (tofu_first_implies_no_entry c6Fresh "beta" 22).2 (by decide),
   (tofu_first_implies_no_entry c6Fresh "beta" 22).1⟩

/-- The remainder after the first separator is a suffix of the input. -/
theorem pySplitOnce_snd_suffix (sep : Char) :
    ∀ s r : List Char, (pySplitOnce sep s).2 = some r → r <:+ s := by
  intro s
  induction s with
  | nil => intro r h; simp [pySplitOnce] at h
  | cons c rest ih =>
    intro r h
    rw [pySplitOnce_cons] at h
    by_cases hc : c = sep
    · rw [if_pos hc] at h
      injection h with h
      subst h
      exact List.suffix_cons c rest
    · rw [if_neg hc] at h
      exact (ih r h).trans (List.suffix_cons c rest)

/-- The bracket-mismatch check of `urlparse` never fires on a
bracket-free input. -/
theorem brackets_check_false (u s : List Char) (hsub : ∀ x ∈ u, x ∈ s)
    (hl : '[' ∉ s) (hr : ']' ∉ s) :
    (if u.take 2 = ['/', '/'] then
      let netloc := (u.drop 2).takeWhile (fun c => c ≠ '/' && c ≠ '?' && c ≠ '#')
      (pyElem '[' netloc && !pyElem ']' netloc) ||
        (pyElem ']' netloc && !pyElem '[' netloc)
    else false) = false := by
  split
  · dsimp only
    have hn : ∀ x ∈ (u.drop 2).takeWhile (fun c => c ≠ '/' && c ≠ '?' && c ≠ '#'), x ∈ s := by
      intro x hx
      exact hsub x ((List.drop_sublist 2 u).subset ((List.takeWhile_prefix _).sublist.subset hx))
    have h1 : pyElem '[' ((u.drop 2).takeWhile (fun c => c ≠ '/' && c ≠ '?' && c ≠ '#')) = false := by
      simp only [pyElem, decide_eq_false_iff_not]
      exact fun hmem => hl (hn _ hmem)
    have h2 : pyElem ']' ((u.drop 2).takeWhile (fun c => c ≠ '/' && c ≠ '?' && c ≠ '#')) = false := by
      simp only [pyElem, decide_eq_false_iff_not]
      exact fun hmem => hr (hn _ hmem)
    rw [h1, h2]
    rfl
  · rfl

theorem urlparse_raises_bracketfree (s : List Char) (hl : '[' ∉ s) (hr : ']' ∉ s) :
    urlparse_raises s = false := by
  unfold urlparse_raises
  dsimp only
  rcases hps : pySplitOnce ':' s with ⟨fst, snd⟩
  cases fst with
  | nil => exact brackets_check_false s s (fun x hx => hx) hl hr
  | cons c pre =>
    cases snd with
    | none => exact brackets_check_false s s (fun x hx => hx) hl hr
    | some r =>
      dsimp only
      have hsuf : r <:+ s := by
        apply pySplitOnce_snd_suffix ':' s r
        rw [hps]
      by_cases hsch : (isAsciiAlpha c && (c :: pre).all isSchemeChar) = true
      · rw [if_pos hsch]
        exact brackets_check_false r s (fun x hx => hsuf.sublist.subset hx) hl hr
      · rw [if_neg hsch]
        exact brackets_check_false s s (fun x hx => hx) hl hr

/-- C7 counterexample: the scp-style URL `git@github.com:owner/repo.git`
has no parsed scheme at all (the part before `:` is not a valid scheme),
yet `validate_git_url` accepts it — the source only rejects a scheme that
is present and disallowed (`if parsed.scheme and ...`), so the claim that
every accepted URL has a scheme in `{https, http, git, ssh}` is false. -/
theorem git_url_schemeless_accepted :
    validate_git_url "git@github.com:owner/repo.git" =
      some "git@github.com:owner/repo.git" ∧
    urlparse_scheme "git@github.com:owner/repo.git".data = [] ∧
    urlparse_scheme "git@github.com:owner/repo.git".data ∉ allowed_schemes := by
  refine ⟨by decide, by decide, by decide⟩

/-- C7 amended: on bracket-free input, `validate_git_url` returns the
input unchanged exactly when it is nonempty, at most 2048 characters,
its parsed scheme is empty or one of https/http/git/ssh, and none of the
dangerous characters/sequences occurs; otherwise it raises.  (The empty
scheme case is the repair the counterexample forces; the empty-input and
raise-on-anything-else behavior matches the claim's remaining text.) -/
theorem validate_git_url_characterization (s : String)
    (hlb : '[' ∉ s.data) (hrb : ']' ∉ s.data) :
    validate_git_url s = if spec_url_accepts s then some s else none := by
  have hbr : urlparse_raises s.data = false := urlparse_raises_bracketfree s.data hlb hrb
  by_cases h1 : s.data.isEmpty
  · have hna : ¬ spec_url_accepts s := fun ha => ha.1 (by simpa using h1)
    rw [if_neg hna]
    unfold validate_git_url
    rw [if_pos h1]
  · by_cases h2 : 2048 < s.data.length
    · have hna : ¬ spec_url_accepts s := fun ha => absurd ha.2.1 (by omega)
      rw [if_neg hna]
      unfold validate_git_url
      rw [if_neg h1, if_pos h2]
    · by_cases h3 : (!(urlparse_scheme s.data).isEmpty &&
          !decide (urlparse_scheme s.data ∈ allowed_schemes)) = true
      · have hna : ¬ spec_url_accepts s := by
          intro ha
          rcases ha.2.2.1 with h | h
          · simp [h] at h3
          · simp [h] at h3
        rw [if_neg hna]
        unfold validate_git_url
        rw [if_neg h1, if_neg h2, if_neg (by simp [hbr]), if_pos h3]
      · by_cases h4 : dangerous_url_strs.any (fun d => pySubstr d s.data) = true
        · have hna : ¬ spec_url_accepts s := by
            intro ha
            rw [List.any_eq_true] at h4
            obtain ⟨d, hd, hsubd⟩ := h4
            exact ha.2.2.2 d hd (by simpa [pySubstr, decide_eq_true_eq] using hsubd)
          rw [if_neg hna]
          unfold validate_git_url
          rw [if_neg h1, if_neg h2, if_neg (by simp [hbr]), if_neg h3, if_pos h4]
        · have hacc : spec_url_accepts s := by
            refine ⟨by simpa using h1, by omega, ?_, ?_⟩
            · by_cases hsse : (urlparse_scheme s.data).isEmpty
              · left
                simpa using hsse
              · right
                by_contra hmem
                apply h3
                simp [hsse, hmem]
            · intro d hd hinf
              apply h4
              rw [List.any_eq_true]
              exact ⟨d, hd, by simp [pySubstr, decide_eq_true_eq, hinf]⟩
          rw [if_pos hacc]
          unfold validate_git_url
          rw [if_neg h1, if_neg h2, if_neg (by simp [hbr]), if_neg h3, if_neg h4]

/-- C7 amended witness: a typical HTTPS repository URL. -/
theorem validate_git_url_characterization_witness :
    ('[' ∉ "https://github.com/o/r.git".data) ∧
    validate_git_url "https://github.com/o/r.git" =
      if spec_url_accepts "https://github.com/o/r.git"
      then some "https://github.com/o/r.git" else none :=
  ⟨by decide,
   validate_git_url_characterization "https://github.com/o/r.git" (by decide) (by decide)⟩

/-! ## Lemmas for the flake-reference round trip (C8) -/

theorem pySplitOnce_append (sep : Char) (a b : List Char) (ha : sep ∉ a) :
    pySplitOnce sep (a ++ sep :: b) = (a, some b) := by
  induction a with
  | nil => simp [pySplitOnce]
  | cons c rest ih =>
    have hc : c ≠ sep := fun h => ha (h ▸ List.mem_cons_self c rest)
    have hrest : sep ∉ rest := fun h => ha (List.mem_cons_of_mem c h)
    rw [List.cons_append, pySplitOnce_cons, if_neg hc, ih hrest]

theorem pySplitChar_sepfree (sep : Char) (a : List Char) (ha : sep ∉ a) :
    pySplitChar sep a = [a] := by
  induction a with
  | nil => rfl
  | cons c rest ih =>
    have hc : c ≠ sep := fun h => ha (h ▸ List.mem_cons_self c rest)
    have hrest : sep ∉ rest := fun h => ha (List.mem_cons_of_mem c h)
    rw [pySplitChar_cons, if_neg hc, ih hrest]

theorem pySplitChar_ne_nil (sep : Char) (s : List Char) : pySplitChar sep s ≠ [] := by
  cases s with
  | nil => simp [pySplitChar]
  | cons c rest =>
    rw [pySplitChar_cons]
    by_cases hc : c = sep
    · rw [if_pos hc]; simp
    · rw [if_neg hc]
      cases h : pySplitChar sep rest with
      | nil => simp
      | cons a t => simp

theorem pySplitChar_append (sep : Char) (a b : List Char) (ha : sep ∉ a) :
    pySplitChar sep (a ++ sep :: b) = a :: pySplitChar sep b := by
  induction a with
  | nil =>
    rw [List.nil_append, pySplitChar_cons, if_pos rfl]
  | cons c rest ih =>
    have hc : c ≠ sep := fun h => ha (h ▸ List.mem_cons_self c rest)
    have hrest : sep ∉ rest := fun h => ha (List.mem_cons_of_mem c h)
    rw [List.cons_append, pySplitChar_cons, if_neg hc, ih hrest]

/-- Reduction of `parse_flake_reference` on a well-formed `github:` ref. -/
theorem parse_flake_reference_github (src attr : List Char) (hsrc : '#' ∉ src) :
    parse_flake_reference ("github:".data ++ src ++ '#' :: attr) =
      (match pySplitChar '/' src with
      | owner :: repo :: rest =>
        some ⟨owner ++ '/' :: repo,
              "https://github.com/".data ++ owner ++ '/' :: repo ++ ".git".data,
              match rest with
              | ref :: _ => if isCommitHash ref then ref else "floating".data
              | [] => "floating".data⟩
      | _ => none) := by
  have hne : '#' ∉ "github:".data ++ src := by
    rw [List.mem_append]
    rintro (h | h)
    · revert h; decide
    · exact hsrc h
  have hsp : pySplitOnce '#' (("github:".data ++ src) ++ '#' :: attr) =
      ("github:".data ++ src, some attr) := pySplitOnce_append '#' _ attr hne
  unfold parse_flake_reference
  rw [hsp]
  have htake : ("github:".data ++ src ++ '#' :: attr).take 1 = ['g'] := rfl
  rw [if_neg (by rw [htake]; decide)]
  dsimp only
  rw [if_pos ((List.isPrefixOf_iff_prefix).mpr (List.prefix_append _ _))]
  have hdrop : ("github:".data ++ src).drop 7 = src := by
    simp

  rw [hdrop]

/-- Reduction of `extract_repo_name_from_url` on the URL the parser
builds. -/
theorem extract_github_url (owner repo : List Char) (ho : '/' ∉ owner) (hr : '/' ∉ repo) :
    extract_repo_name_from_url
        ("https://github.com/".data ++ owner ++ '/' :: repo ++ ".git".data) =
      owner ++ '/' :: repo := by
  have h1 : "https://github.com/".data ++ owner ++ '/' :: repo ++ ".git".data =
      "https://".data ++ ("github.com/".data ++ (owner ++ '/' :: repo) ++ ".git".data) := by
    rw [show "https://github.com/".data = "https://".data ++ "github.com/".data from by decide]
    simp [List.append_assoc]
  have h2 : strip_http_protocol
      ("https://github.com/".data ++ owner ++ '/' :: repo ++ ".git".data) =
      "github.com/".data ++ (owner ++ '/' :: repo) ++ ".git".data := by
    rw [h1]
    unfold strip_http_protocol
    rw [if_pos ((List.isPrefixOf_iff_prefix).mpr (List.prefix_append _ _))]
    simp
  have h3 : strip_git_suffix
      ("github.com/".data ++ (owner ++ '/' :: repo) ++ ".git".data) =
      "github.com/".data ++ (owner ++ '/' :: repo) := by
    unfold strip_git_suffix
    rw [if_pos ((List.isSuffixOf_iff_suffix).mpr (List.suffix_append _ _))]
    have hlen : ("github.com/".data ++ (owner ++ '/' :: repo) ++ ".git".data).length - 4 =
        ("github.com/".data ++ (owner ++ '/' :: repo)).length := by
      simp [List.length_append]
      omega
    rw [hlen]
    exact List.take_left _ _
  have h4 : "github.com/".data ++ (owner ++ '/' :: repo) =
      "github.com".data ++ '/' :: (owner ++ '/' :: repo) := by
    rw [show "github.com/".data = "github.com".data ++ ['/'] from by decide]
    simp [List.append_assoc]
  have h5 : pySplitChar '/' ("github.com/".data ++ (owner ++ '/' :: repo)) =
      ["github.com".data, owner, repo] := by
    rw [h4, pySplitChar_append '/' "github.com".data _ (by decide),
        pySplitChar_append '/' owner repo ho, pySplitChar_sepfree '/' repo hr]
  unfold extract_repo_name_from_url
  rw [h2, h3]
  dsimp only
  rw [h5]
  simp

/-- C8: parse round-trip.  For every GitHub flake reference
`github:owner/repo#attr` or `github:owner/repo/ref#attr` (components free
of `/` and `#`), `extract_repo_name_from_url` applied to the `repo_url`
returned by `parse_flake_reference` equals the returned `repo_name`
(`owner/repo`), and the returned commit component is the literal ref when
it matches `^[a-f0-9]{40}$` and the sentinel `"floating"` otherwise (in
particular `"floating"` when no ref is given). -/
theorem parse_roundtrip (owner repo attr : List Char) (oref : Option (List Char))
    (ho1 : '/' ∉ owner) (ho2 : '#' ∉ owner)
    (hr1 : '/' ∉ repo) (hr2 : '#' ∉ repo)
    (hf1 : ∀ r, oref = some r → '/' ∉ r) (hf2 : ∀ r, oref = some r → '#' ∉ r) :
    ∃ fp, parse_flake_reference
        ("github:".data ++
          (owner ++ '/' :: repo ++ (match oref with | none => [] | some r => '/' :: r)) ++
          '#' :: attr) = some fp ∧
      extract_repo_name_from_url fp.repoUrl = fp.repoName ∧
      fp.repoName = owner ++ '/' :: repo ∧
      fp.commit = (match oref with
        | none => "floating".data
        | some r => if isCommitHash r then r else "floating".data) := by
  cases oref with
  | none =>
    dsimp only
    rw [List.append_nil]
    have hsrc : '#' ∉ owner ++ '/' :: repo := by
      rw [List.mem_append, List.mem_cons]
      rintro (h | h | h)
      · exact ho2 h
      · cases h
      · exact hr2 h
    rw [parse_flake_reference_github _ attr hsrc,
        pySplitChar_append '/' owner repo ho1, pySplitChar_sepfree '/' repo hr1]
    exact ⟨_, rfl, extract_github_url owner repo ho1 hr1, rfl, rfl⟩
  | some ref =>
    have hfs : '/' ∉ ref := hf1 ref rfl
    have hfh : '#' ∉ ref := hf2 ref rfl
    dsimp only
    have hsh : owner ++ '/' :: repo ++ '/' :: ref = owner ++ '/' :: (repo ++ '/' :: ref) := by
      simp [List.append_assoc]
    rw [hsh]
    have hsrc : '#' ∉ owner ++ '/' :: (repo ++ '/' :: ref) := by
      rw [List.mem_append, List.mem_cons, List.mem_append, List.mem_cons]
      rintro (h | h | h | h | h)
      · exact ho2 h
      · cases h
      · exact hr2 h
      · cases h
      · exact hfh h
    rw [parse_flake_reference_github _ attr hsrc,
        pySplitChar_append '/' owner (repo ++ '/' :: ref) ho1,
        pySplitChar_append '/' repo ref hr1, pySplitChar_sepfree '/' ref hfs]
    exact ⟨_, rfl, extract_github_url owner repo ho1 hr1, rfl, rfl⟩

/-- C8 witness: `github:o/r#host` and
`github:o/r/1234567890123456789012345678901234567890#host`. -/
theorem parse_roundtrip_witness :
    ('/' ∉ "o".data) ∧
    (∃ fp, parse_flake_reference
        ("github:".data ++ ("o".data ++ '/' :: "r".data ++ []) ++ '#' :: "host".data) =
        some fp ∧
      extract_repo_name_from_url fp.repoUrl = fp.repoName ∧
      fp.repoName = "o".data ++ '/' :: "r".data ∧
      fp.commit = "floating".data) :=
  ⟨by decide,
   parse_roundtrip "o".data "r".data "host".data none (by decide) (by decide)
     (by decide) (by decide) (fun r h => by cases h) (fun r h => by cases h)⟩

/-! ## Lemmas for directory-hash determinism (C9) -/

theorem sortByKey_strictSorted {α : Type} (l : List (List Nat × α))
    (hnd : (l.map Prod.fst).Nodup) :
    (sortByKey l).Pairwise (fun a b => a.1 < b.1) := by
  have hs : (sortByKey l).Pairwise byteKeyLe := List.sorted_insertionSort byteKeyLe l
  have hperm : List.Perm (sortByKey l) l := List.perm_insertionSort byteKeyLe l
  have hnd2 : ((sortByKey l).map Prod.fst).Nodup := ((hperm.map Prod.fst).nodup_iff).mpr hnd
  have hne : (sortByKey l).Pairwise (fun a b => a.1 ≠ b.1) := List.pairwise_map.mp hnd2
  exact (hs.and hne).imp (fun h => lt_of_le_of_ne h.1 h.2)

theorem sortByKey_eq_of_perm {α : Type} {l1 l2 : List (List Nat × α)}
    (h : List.Perm l1 l2) (hnd : (l1.map Prod.fst).Nodup) :
    sortByKey l1 = sortByKey l2 := by
  have hperm : List.Perm (sortByKey l1) (sortByKey l2) :=
    ((List.perm_insertionSort byteKeyLe l1).trans h).trans
      (List.perm_insertionSort byteKeyLe l2).symm
  have hnd2 : (l2.map Prod.fst).Nodup := ((h.map Prod.fst).nodup_iff).mp hnd
  exact List.eq_of_perm_of_sorted hperm (sortByKey_strictSorted l1 hnd)
    (sortByKey_strictSorted l2 hnd2)

theorem forall₂_orderedInsert {α : Type}
    (R : (List Nat × α) → (List Nat × α) → Prop)
    (hkey : ∀ a b, R a b → a.1 = b.1) {a b : List Nat × α}
    {l1 l2 : List (List Nat × α)} (hab : R a b) (h : List.Forall₂ R l1 l2) :
    List.Forall₂ R (List.orderedInsert byteKeyLe a l1)
      (List.orderedInsert byteKeyLe b l2) := by
  induction h with
  | nil => exact List.Forall₂.cons hab List.Forall₂.nil
  | cons hxy hrest ih =>
    rename_i x y l1' l2'
    by_cases hle : byteKeyLe a x
    · have hle2 : byteKeyLe b y := by
        have h1 := hkey a b hab
        have h2 := hkey x y hxy
        unfold byteKeyLe at hle ⊢
        rw [← h1, ← h2]
        exact hle
      rw [List.orderedInsert, List.orderedInsert, if_pos hle, if_pos hle2]
      exact List.Forall₂.cons hab (List.Forall₂.cons hxy hrest)
    · have hle2 : ¬ byteKeyLe b y := by
        have h1 := hkey a b hab
        have h2 := hkey x y hxy
        unfold byteKeyLe at hle ⊢
        rw [← h1, ← h2]
        exact hle
      rw [List.orderedInsert, List.orderedInsert, if_neg hle, if_neg hle2]
      exact List.Forall₂.cons hxy ih

theorem forall₂_insertionSort {α : Type}
    (R : (List Nat × α) → (List Nat × α) → Prop)
    (hkey : ∀ a b, R a b → a.1 = b.1) {l1 l2 : List (List Nat × α)}
    (h : List.Forall₂ R l1 l2) :
    List.Forall₂ R (sortByKey l1) (sortByKey l2) := by
  induction h with
  | nil => exact List.Forall₂.nil
  | cons hxy hrest ih =>
    unfold sortByKey at ih ⊢
    rw [List.insertionSort, List.insertionSort]
    exact forall₂_orderedInsert R hkey hxy ih

theorem forall₂_of_pairs {α : Type} (R : (List Nat × α) → (List Nat × α) → Prop)
    (dp : List ((List Nat × α) × (List Nat × α))) (h : ∀ q ∈ dp, R q.1 q.2) :
    List.Forall₂ R (dp.map Prod.fst) (dp.map Prod.snd) := by
  induction dp with
  | nil => exact List.Forall₂.nil
  | cons q rest ih =>
    exact List.Forall₂.cons (h q (List.mem_cons_self q rest))
      (ih (fun p hp => h p (List.mem_cons_of_mem q hp)))

theorem forall₂_map_fst_eq {α : Type} (R : (List Nat × α) → (List Nat × α) → Prop)
    (hkey : ∀ a b, R a b → a.1 = b.1) {l1 l2 : List (List Nat × α)}
    (h : List.Forall₂ R l1 l2) : l1.map Prod.fst = l2.map Prod.fst := by
  induction h with
  | nil => rfl
  | cons hxy hrest ih => simp [hkey _ _ hxy, ih]

theorem forall₂_map_eq {α : Type} {β : Type}
    (R : (List Nat × α) → (List Nat × α) → Prop)
    (g g' : (List Nat × α) → β) {l1 l2 : List (List Nat × α)}
    (h : List.Forall₂ R l1 l2) (hg : ∀ a b, R a b → g a = g' b) :
    l1.map g = l2.map g' := by
  induction h with
  | nil => rfl
  | cons hxy hrest ih => simp [hg _ _ hxy, ih]

theorem walkStream_mk (pre : List Nat) (files : List (List Nat × Option (List Nat)))
    (subdirs : List (List Nat × DirTree)) :
    walkStream pre (.mk files subdirs) =
      filesStream pre (sortByKey files) ++
      ((sortByKey subdirs).map (fun p => walkStream (pre ++ p.1 ++ [47]) p.2)).flatten := by
  rw [walkStream]
  congr 2
  exact List.attach_map_val (sortByKey subdirs)
    (fun p => walkStream (pre ++ p.1 ++ [47]) p.2)

/-- The walk stream depends only on the tree's content, not on the
enumeration order of each directory's entries. -/
theorem walkStream_congr :
    ∀ (n : Nat) (t1 t2 : DirTree), sizeOf t1 ≤ n → TreeEquiv t1 t2 → WellFormed t1 →
      ∀ pre, walkStream pre t1 = walkStream pre t2 := by
  intro n
  induction n with
  | zero =>
    intro t1 t2 hle _ _ _
    exfalso
    cases t1 with
    | mk f d =>
      rw [DirTree.mk.sizeOf_spec] at hle
      omega
  | succ n ih =>
    intro t1 t2 hle he hw pre
    cases he with
    | mk dpairs hf hd1 hd2 hkeys htrees =>
      rename_i f1 f2 d1 d2
      cases hw with
      | mk hndf hndd hwd =>
        rw [walkStream_mk, walkStream_mk]
        have hfiles : sortByKey f1 = sortByKey f2 := sortByKey_eq_of_perm hf hndf
        rw [hfiles]
        congr 1
        have hkeyR : ∀ a b : List Nat × DirTree,
            (a ∈ d1 ∧ a.1 = b.1 ∧ TreeEquiv a.2 b.2) → a.1 = b.1 := fun a b h => h.2.1
        have hforall : List.Forall₂
            (fun a b => a ∈ d1 ∧ a.1 = b.1 ∧ TreeEquiv a.2 b.2)
            d1 (dpairs.map Prod.snd) := by
          conv_lhs => rw [← hd1]
          apply forall₂_of_pairs
          intro q hq
          exact ⟨hd1 ▸ List.mem_map_of_mem Prod.fst hq, hkeys q hq, htrees q hq⟩
        have hsorted := forall₂_insertionSort _ hkeyR hforall
        have hmapeq : (sortByKey d1).map (fun p => walkStream (pre ++ p.1 ++ [47]) p.2) =
            (sortByKey (dpairs.map Prod.snd)).map
              (fun p => walkStream (pre ++ p.1 ++ [47]) p.2) := by
          apply forall₂_map_eq _ _ _ hsorted
          intro a b hab
          obtain ⟨hmem, hkey, heqv⟩ := hab
          rw [← hkey]
          apply ih a.2 b.2 _ heqv (hwd a hmem)
          have h1 : sizeOf a < sizeOf d1 := List.sizeOf_lt_of_mem hmem
          have h2 : sizeOf a = 1 + sizeOf a.1 + sizeOf a.2 := by
            obtain ⟨u, v⟩ := a; rfl
          rw [DirTree.mk.sizeOf_spec] at hle
          omega
        have hlast : sortByKey (dpairs.map Prod.snd) = sortByKey d2 := by
          apply sortByKey_eq_of_perm hd2
          have hk : d1.map Prod.fst = (dpairs.map Prod.snd).map Prod.fst :=
            forall₂_map_fst_eq _ hkeyR hforall
          rw [← hk]
          exact hndd
        rw [hmapeq, hlast]

/-- C9: `calculate_directory_hash` returns the empty string for a missing
root, and on existing directories its value is determined by the tree's
content alone — two enumerations of identical bytes (file lists and
subdirectory lists permuted arbitrarily, recursively) hash identically,
for every hash function; modification times never enter the stream. -/
theorem directory_hash_deterministic (sha : List Nat → String) (t1 t2 : DirTree)
    (he : TreeEquiv t1 t2) (hw : WellFormed t1) :
    calculate_directory_hash sha none = "" ∧
    calculate_directory_hash sha (some t1) = calculate_directory_hash sha (some t2) := by
  refine ⟨rfl, ?_⟩
  show sha (walkStream [] t1) = sha (walkStream [] t2)
  rw [walkStream_congr (sizeOf t1) t1 t2 le_rfl he hw []]

/-- C9 witness: two enumeration orders of the same two files (plus one
subdirectory), hashed with a concrete function. -/
theorem directory_hash_deterministic_witness :
    calculate_directory_hash shaLen none = "" ∧
    calculate_directory_hash shaLen (some c9t1) = calculate_directory_hash shaLen (some c9t2) := by
  have hsub : TreeEquiv (DirTree.mk [(bytes "f", some (bytes "zz"))] [])
      (DirTree.mk [(bytes "f", some (bytes "zz"))] []) :=
    TreeEquiv.mk [] (List.Perm.refl _) rfl (List.Perm.refl _)
      (fun q hq => absurd hq (List.not_mem_nil q))
      (fun q hq => absurd hq (List.not_mem_nil q))
  have he : TreeEquiv c9t1 c9t2 := by
    refine TreeEquiv.mk
      [((bytes "sub", DirTree.mk [(bytes "f", some (bytes "zz"))] []),
        (bytes "sub", DirTree.mk [(bytes "f", some (bytes "zz"))] []))]
      (List.Perm.swap _ _ _) rfl (List.Perm.refl _) ?_ ?_
    · intro q hq
      rcases List.mem_singleton.mp hq with rfl
      rfl
    · intro q hq
      rcases List.mem_singleton.mp hq with rfl
      exact hsub
  have hw : WellFormed c9t1 := by
    refine WellFormed.mk (by decide) (by decide) ?_
    intro p hp
    rcases List.mem_singleton.mp hp with rfl
    exact WellFormed.mk (by decide) (by decide) (fun q hq => absurd hq (List.not_mem_nil q))
  exact directory_hash_deterministic shaLen c9t1 c9t2 he hw
